import Mathlib

/-!
# Verification of the read-a-note repository against its specification

Part I embeds the note-trainer page (`packages/client/app/pages/index.vue`):
`generateNoteRange`, the treble/bass note pools, `generateNewNote` and
`handleGuess`.  JavaScript strings are modelled as `List Char`.

Part II models the Evaluation Engine described by the specification (template
store, variable resolver, evaluation runner, comparison assembler).  The
repository ships only design documents for that engine, no implementation, so
those definitions are written from the specification text and are marked
`Modelled from the spec:` in their doc comments.
-/

namespace ReadANote

/-- Shorthand turning a Lean string literal into the `List Char` that models a
JavaScript string. -/
def str (s : String) : List Char := s.data

/-- Model of JavaScript `String.prototype.split` with a single-character
separator: splits the character list at every occurrence of `sep`; the result
is never empty, and `"".split(sep)` is `[""]`. -/
def splitOnChar (sep : Char) : List Char → List (List Char)
  | [] => [[]]
  | c :: rest =>
      let r := splitOnChar sep rest
      if c = sep then [] :: r
      else
        match r with
        | [] => [[c]]
        | h :: t => (c :: h) :: t

/-- The numeric value of a decimal digit character, `none` otherwise. -/
def digitVal? (c : Char) : Option Nat :=
  if '0' ≤ c ∧ c ≤ '9' then some (c.toNat - '0'.toNat) else none

/-- Accumulating decimal parser over a list of characters; fails on the first
non-digit character. -/
def natNumAux : List Char → Nat → Option Nat
  | [], acc => some acc
  | c :: rest, acc =>
      match digitVal? c with
      | some d => natNumAux rest (acc * 10 + d)
      | none => none

/-- Model of JavaScript `Number(s)` restricted to plain decimal integer
numerals with an optional leading minus sign; every other input is mapped to
`none`, which models the `NaN` outcome (a `NaN` octave makes the source's
`while` condition false, so the code paths the claims exercise agree). -/
def jsNumber? (s : List Char) : Option Int :=
  match s with
  | [] => none
  | c :: rest =>
      if c = '-' then
        if rest = [] then none
        else (natNumAux rest 0).map (fun n => -(n : Int))
      else (natNumAux (c :: rest) 0).map (fun n => (n : Int))

/-- Model of JavaScript `Array.prototype.indexOf`: the index of the first
occurrence of `x`, or `-1` when `x` does not occur. -/
def jsIndexOf (x : List Char) : List (List Char) → Int
  | [] => -1
  | y :: rest =>
      if y = x then 0
      else
        let r := jsIndexOf x rest
        if r = -1 then -1 else r + 1

/-- Decimal rendering of a natural number, as in JavaScript template
interpolation. -/
def natChars (n : Nat) : List Char := Nat.toDigits 10 n

/-- Decimal rendering of an integer, as in JavaScript template
interpolation. -/
def intChars (i : Int) : List Char :=
  if i < 0 then '-' :: natChars i.natAbs else natChars i.toNat

/-- The note-name array `noteNames` of `index.vue`. -/
def noteNames : List (List Char) := [str "c", str "d", str "e", str "f", str "g", str "a", str "b"]

/-- The `while` loop of `generateNoteRange` (`index.vue` lines 46–57).  The
loop index stays in `[0,7)` by the wrap-around logic of the source, which the
`Fin 7` argument records.  The loop is driven by explicit fuel so that it
computes by kernel reduction; `generateNoteRange` supplies fuel that provably
dominates the number of iterations (see `noteLoop_eq_rangeSpec`). -/
def noteLoop (eo endIdx : Int) : Nat → Fin 7 → Int → List (List Char)
  | 0, _, _ => []
  | fuel + 1, ci, co =>
      if co < eo ∨ (co = eo ∧ (ci.val : Int) ≤ endIdx) then
        (noteNames.getD ci.val [] ++ '/' :: intChars co) ::
          (if h : ci.val + 1 ≥ 7 then noteLoop eo endIdx fuel ⟨0, by omega⟩ (co + 1)
           else noteLoop eo endIdx fuel ⟨ci.val + 1, by omega⟩ co)
      else []

/-- Bound used to justify the `Fin 7` index taken from `jsIndexOf`. -/
theorem jsIndexOf_bound (x : List Char) (l : List (List Char)) :
    jsIndexOf x l = -1 ∨ (0 ≤ jsIndexOf x l ∧ jsIndexOf x l < l.length) := by
  induction l with
  | nil => left; rfl
  | cons y rest ih =>
      simp only [jsIndexOf]
      by_cases hy : y = x
      · simp only [hy, if_true, List.length_cons]
        right
        constructor
        · omega
        · positivity
      · simp only [hy, if_false]
        rcases ih with h | h
        · simp [h]
        · have : ¬ jsIndexOf x rest = -1 := by omega
          simp only [this, if_false]
          right
          constructor
          · omega
          · simp only [List.length_cons]
            omega

/-- Embedding of `generateNoteRange` (`index.vue` lines 16–59).  Mirrors the
source: split both arguments on `'/'`, reject part lists shorter than two or
empty parts, reject an unknown start note name (`indexOf === -1`), convert the
octave parts with `Number`, and run the while loop.  A non-numeric octave
yields `[]` exactly as in the source, where the `NaN` comparisons make the
loop body unreachable. -/
def generateNoteRange (startNote endNote : List Char) : List (List Char) :=
  let startParts := splitOnChar '/' startNote
  let endParts := splitOnChar '/' endNote
  if startParts.length < 2 ∨ endParts.length < 2 then []
  else
    let currentNoteName := startParts.getD 0 []
    let currentOctaveStr := startParts.getD 1 []
    let endNoteName := endParts.getD 0 []
    let endOctaveStr := endParts.getD 1 []
    if currentNoteName = [] ∨ currentOctaveStr = [] ∨ endNoteName = [] ∨ endOctaveStr = []
    then []
    else
      if hidx : jsIndexOf currentNoteName noteNames = -1 then []
      else
        match jsNumber? currentOctaveStr, jsNumber? endOctaveStr with
        | some co, some eo =>
            noteLoop eo (jsIndexOf endNoteName noteNames)
              ((eo - co) * 7 + 7).toNat
              ⟨(jsIndexOf currentNoteName noteNames).toNat, by
                rcases jsIndexOf_bound currentNoteName noteNames with h | h
                · exact absurd h hidx
                · have h7 : noteNames.length = 7 := rfl
                  omega⟩
              co
        | _, _ => []

/-- `trebleNotes` of `index.vue` line 61. -/
def trebleNotes : List (List Char) := generateNoteRange (str "f/3") (str "e/6")

/-- `bassNotes` of `index.vue` line 62. -/
def bassNotes : List (List Char) := generateNoteRange (str "c/2") (str "e/4")

/-- The clef values of `index.vue`. -/
inductive Clef
  | treble
  | bass
deriving DecidableEq

/-- The feedback values of `index.vue`. -/
inductive Feedback
  | waiting
  | correct
  | incorrect
deriving DecidableEq

/-- The reactive state of the page component: `currentNote`, `previousNote`,
`currentClef`, `clefSetting` and `feedback`. -/
structure AppState where
  currentNote : List Char
  previousNote : List Char
  currentClef : Clef
  clefSetting : Clef
  feedback : Feedback
deriving DecidableEq

/-- The note pool chosen from the clef: `trebleNotes` for treble, `bassNotes`
for bass (`index.vue` line 70). -/
def notePoolOf : Clef → List (List Char)
  | .treble => trebleNotes
  | .bass => bassNotes

/-- `availableNotes` of `generateNewNote`: the pool without the note currently
shown (`index.vue` line 72). -/
def availableNotesOf (st : AppState) : List (List Char) :=
  (notePoolOf st.clefSetting).filter (fun note => note ≠ st.currentNote)

/-- `notesToChooseFrom` of `generateNewNote` (`index.vue` lines 74–75). -/
def notesToChooseFromOf (st : AppState) : List (List Char) :=
  if (availableNotesOf st).length > 0 then availableNotesOf st
  else notePoolOf st.clefSetting

/-- Embedding of `generateNewNote` (`index.vue` lines 64–88).  The call to
`Math.random` is modelled by the index `randomIndex` it produces; the real
call always satisfies `randomIndex < notesToChooseFrom.length` because the
pool is non-empty.  The `undefined` fallback branch of the source (note
`"c/4"`) is the `none` case. -/
def generateNewNote (randomIndex : Nat) (st : AppState) : AppState :=
  match (notesToChooseFromOf st)[randomIndex]? with
  | some selectedNote =>
      { st with
        feedback := .waiting
        currentClef := st.clefSetting
        previousNote := st.currentNote
        currentNote := selectedNote }
  | none =>
      { st with
        feedback := .waiting
        currentClef := st.clefSetting
        previousNote := st.currentNote
        currentNote := str "c/4" }

/-- Model of JavaScript `String.prototype.toLowerCase` on the ASCII letters
used by the key map. -/
def jsToLower (s : List Char) : List Char := s.map Char.toLower

/-- Embedding of `handleGuess` (`index.vue` lines 90–105).  `charAt(0)` is
`List.take 1` (the empty string on an empty receiver).  The `setTimeout`
continuations (advancing to a new note after 600 ms, clearing the incorrect
flash after 800 ms) are asynchronous and not part of the synchronous state
transition modelled here. -/
def handleGuess (guess : List Char) (st : AppState) : AppState :=
  if st.feedback = .correct then st
  else
    let correctNoteName := st.currentNote.take 1
    if jsToLower guess = correctNoteName then { st with feedback := .correct }
    else { st with feedback := .incorrect }

/-- Specification-side description of a note: position `k` in the global
ascending order that steps through c,d,e,f,g,a,b and increments the octave
after b, so `k = 7 * octave + noteIndex`. -/
def noteAt (k : Int) : List Char :=
  noteNames.getD (k % 7).toNat [] ++ '/' :: intChars (k / 7)

/-- Specification-side description of an inclusive ascending note range, from
global position `k1` to `k2`. -/
def rangeSpec (k1 k2 : Int) : List (List Char) :=
  (List.range (k2 + 1 - k1).toNat).map (fun (j : Nat) => noteAt (k1 + (j : Int)))

/-!
## Part II: the Evaluation Engine of the specification

The repository contains only design documents for this engine, no
implementation, so every operation below is modelled from the specification
text (sections are cited per definition).  JavaScript strings are again
`List Char`.
-/

/-- An input mapping from variable names to string values (spec §3, §4.3),
modelled as an association list in which the first binding for a key wins. -/
abbrev Env := List (List Char × List Char)

/-- Modelled from the spec: lookup of a variable name in the input mapping of
§4.3 (the implementation of the Variable Resolver is absent from the
repository). -/
def envLookup (n : List Char) : Env → Option (List Char)
  | [] => none
  | (k, v) :: rest => if k = n then some v else envLookup n rest

/-- Scan for the closing marker of a placeholder: returns the characters
before the first closing double brace and the remainder after it, or `none`
when the placeholder is unterminated (§4.3 treats that as literal text). -/
def findClose : List Char → Option (List Char × List Char)
  | [] => none
  | '}' :: '}' :: rest => some ([], rest)
  | c :: rest => (findClose rest).map (fun p => (c :: p.1, p.2))

/-- Modelled from the spec: the scanning pass of the Variable Resolver of
§4.3, absent from the repository.  Walks the template; on an opening double
brace with a terminated body, substitutes the mapped value or leaves the
placeholder text unresolved, and records the placeholder name; otherwise
copies the character.  The scan is driven by fuel (one unit per step, each
step consumes at least one character), so `tpl.length` fuel always suffices;
the equivalence with the declarative `tokenize`/`renderToks` reading is
proved in `resolveAux_eq`. -/
def resolveAux (env : Env) : Nat → List Char → List Char × List (List Char)
  | _, [] => ([], [])
  | 0, l => (l, [])
  | fuel + 1, '{' :: '{' :: rest =>
      match findClose rest with
      | some (name, rest') =>
          let p := resolveAux env fuel rest'
          match envLookup name env with
          | some v => (v ++ p.1, name :: p.2)
          | none => ('{' :: '{' :: (name ++ '}' :: '}' :: p.1), name :: p.2)
      | none => ('{' :: '{' :: rest, [])
  | fuel + 1, c :: rest =>
      let p := resolveAux env fuel rest
      (c :: p.1, p.2)

/-- Result value of the Variable Resolver (§4.3): the rendered text and the
diagnostic report. -/
structure ResolveResult where
  rendered : List Char
  missingInTemplate : List (List Char)
  missingInInput : List (List Char)
deriving DecidableEq

/-- Modelled from the spec: the Variable Resolver of §4.3, absent from the
repository.  A pure total function — no exception is ever raised for a
mismatch; mismatch is surfaced only through the diagnostic report:
`missingInTemplate` is the input keys matching no placeholder, and
`missingInInput` is the placeholder names with no input key. -/
def resolve (tpl : List Char) (env : Env) : ResolveResult :=
  let p := resolveAux env tpl.length tpl
  { rendered := p.1
    missingInTemplate := ((env.map Prod.fst).filter (fun k => decide (k ∉ p.2))).dedup
    missingInInput := (p.2.filter (fun n => (envLookup n env).isNone)).dedup }

/-- Token-level reading of a template, used to state the resolver's contract:
a template is literal characters interleaved with named placeholders. -/
inductive Tok
  | lit (c : Char)
  | ph (name : List Char)
deriving DecidableEq

/-- Declarative tokenizer for templates, mirroring the placeholder grammar of
§4.3: a terminated double-brace group is a placeholder, everything else
(including an unterminated group) is literal text. -/
def tokenize : Nat → List Char → List Tok
  | _, [] => []
  | 0, l => l.map .lit
  | fuel + 1, '{' :: '{' :: rest =>
      match findClose rest with
      | some (name, rest') => .ph name :: tokenize fuel rest'
      | none => .lit '{' :: .lit '{' :: rest.map .lit
  | fuel + 1, c :: rest => .lit c :: tokenize fuel rest

/-- Rendering of one token under an input mapping: a present placeholder
becomes its mapped value verbatim, an absent one is left as its original
placeholder text (§4.3 graceful degradation). -/
def renderTok (env : Env) : Tok → List Char
  | .lit c => [c]
  | .ph name =>
      match envLookup name env with
      | some v => v
      | none => '{' :: '{' :: (name ++ ['}', '}'])

/-- Rendering of a token sequence: concatenation of per-token renderings. -/
def renderToks (env : Env) (ts : List Tok) : List Char :=
  (ts.map (renderTok env)).flatten

/-- The placeholder names of a token sequence, in template order. -/
def phNames (ts : List Tok) : List (List Char) :=
  ts.filterMap (fun t => match t with | .ph n => some n | .lit _ => none)

/-- The error taxonomy of §7. -/
inductive DomainError
  | notFound
  | generationFailed (reason : List Char)
  | validationError
deriving DecidableEq

/-- An immutable snapshot of template text (§3): id, owning prompt, template
text, and the monotonic sequence number giving the total creation order. -/
structure PromptVersion where
  id : Nat
  promptId : Nat
  template : List Char
  seq : Nat
deriving DecidableEq

/-- A reusable named input scenario owned by a Prompt, never by a version
(§3). -/
structure TestCase where
  id : Nat
  promptId : Nat
  title : List Char
  input : Env
deriving DecidableEq

/-- The stored result of rendering one TestCase against one PromptVersion and
invoking generation (§3). -/
structure Evaluation where
  id : Nat
  testCaseId : Nat
  promptVersionId : Nat
  rendered : List Char
  output : List Char
  model : List Char
  createdAt : Nat
deriving DecidableEq

/-- The persistence collaborator's four logical tables (§6) together with the
fresh-id counter and the logical clock that orders creations. -/
structure Store where
  prompts : List Nat
  versions : List PromptVersion
  testCases : List TestCase
  evaluations : List Evaluation
  nextId : Nat
  clock : Nat
deriving DecidableEq

/-- The store with no data. -/
def emptyStore : Store := ⟨[], [], [], [], 1, 0⟩

/-- The opaque generation collaborator of §6:
`generate(renderedPrompt, model) -> outputText`, failing with a reason. -/
abbrev Generator := List Char → List Char → Except (List Char) (List Char)

/-- Modelled from the spec: creation of a Prompt (§3, "created once by a user
action"), with the §7 rule that an empty title is a `ValidationError`. -/
def createPrompt (title : List Char) (st : Store) : Except DomainError (Store × Nat) :=
  if title = [] then .error .validationError
  else .ok ({ st with prompts := st.prompts ++ [st.nextId], nextId := st.nextId + 1 }, st.nextId)

/-- Modelled from the spec: `createVersion` of §4.1, absent from the
repository — fails with NotFound for an unknown prompt, otherwise always
appends a new immutable record carrying the next sequence number. -/
def createVersion (promptId : Nat) (templateText : List Char) (st : Store) :
    Except DomainError (Store × PromptVersion) :=
  if promptId ∈ st.prompts then
    let v : PromptVersion := ⟨st.nextId, promptId, templateText, st.clock⟩
    .ok ({ st with
            versions := st.versions ++ [v]
            nextId := st.nextId + 1
            clock := st.clock + 1 }, v)
  else .error .notFound

/-- The versions owned by a prompt, oldest first (`listVersions` of §4.1). -/
def versionsOf (promptId : Nat) (st : Store) : List PromptVersion :=
  st.versions.filter (fun v => decide (v.promptId = promptId))

/-- The maximum of a list of versions in the total creation order (§3:
"latest = maximum by this order"). -/
def maxBySeq (v : PromptVersion) : List PromptVersion → PromptVersion
  | [] => v
  | w :: rest => maxBySeq (if v.seq < w.seq then w else v) rest

/-- Modelled from the spec: `getLatest` of §4.1 — NotFound when no versions
exist, otherwise the maximum in the creation order. -/
def getLatest (promptId : Nat) (st : Store) : Except DomainError PromptVersion :=
  match versionsOf promptId st with
  | [] => .error .notFound
  | v :: rest => .ok (maxBySeq v rest)

/-- Modelled from the spec: `getById` of §4.1 — NotFound when absent. -/
def getById (versionId : Nat) (st : Store) : Except DomainError PromptVersion :=
  match st.versions.find? (fun v => decide (v.id = versionId)) with
  | some v => .ok v
  | none => .error .notFound

/-- The test cases owned by a prompt, in creation order (`list` of §4.2). -/
def testCasesOf (promptId : Nat) (st : Store) : List TestCase :=
  st.testCases.filter (fun tc => decide (tc.promptId = promptId))

/-- Modelled from the spec: `create` of §4.2 with the §7 validation rule that
an empty title is rejected before any write; the input mapping is
schema-less. -/
def createTestCase (promptId : Nat) (title : List Char) (input : Env) (st : Store) :
    Except DomainError (Store × TestCase) :=
  if promptId ∈ st.prompts then
    if title = [] then .error .validationError
    else
      let tc : TestCase := ⟨st.nextId, promptId, title, input⟩
      .ok ({ st with testCases := st.testCases ++ [tc], nextId := st.nextId + 1 }, tc)
  else .error .notFound

/-- Modelled from the spec: `delete` of §4.2 — cascades deletion to every
Evaluation referencing the test case; NotFound when absent. -/
def deleteTestCase (testCaseId : Nat) (st : Store) : Except DomainError Store :=
  if st.testCases.any (fun tc => decide (tc.id = testCaseId)) then
    .ok { st with
            testCases := st.testCases.filter (fun tc => decide (¬ tc.id = testCaseId))
            evaluations := st.evaluations.filter (fun e => decide (¬ e.testCaseId = testCaseId)) }
  else .error .notFound

/-- The natural key of an Evaluation (§3): the (test case, prompt version)
pair. -/
def samePair (testCaseId promptVersionId : Nat) (e : Evaluation) : Bool :=
  decide (e.testCaseId = testCaseId ∧ e.promptVersionId = promptVersionId)

/-- The outcome of one `run`, with the store it leaves behind and the number
of generation-collaborator invocations it performed. -/
structure RunResult where
  store : Store
  outcome : Except DomainError Evaluation
  genCalls : Nat

/-- Modelled from the spec: steps 3–5 of `run` (§4.4) — resolve variables,
invoke the generator, and on success atomically replace any existing
Evaluation for the pair; on failure report GenerationFailed and write
nothing. -/
def runFresh (gen : Generator) (testCaseId promptVersionId : Nat) (model : List Char)
    (tc : TestCase) (v : PromptVersion) (st : Store) : RunResult :=
  let rendered := (resolve v.template tc.input).rendered
  match gen rendered model with
  | .error reason => ⟨st, .error (.generationFailed reason), 1⟩
  | .ok output =>
      let e : Evaluation :=
        ⟨st.nextId, testCaseId, promptVersionId, rendered, output, model, st.clock⟩
      ⟨{ st with
          evaluations := e :: st.evaluations.filter (fun x => ! samePair testCaseId promptVersionId x)
          nextId := st.nextId + 1
          clock := st.clock + 1 },
        .ok e, 1⟩

/-- Modelled from the spec: `run` of §4.4, absent from the repository —
fetch the TestCase and PromptVersion (NotFound if either is absent); when
`forceRerun` is false and an Evaluation already exists for the pair, return
it unchanged without calling the generator; otherwise perform steps 3–5. -/
def run (gen : Generator) (testCaseId promptVersionId : Nat) (model : List Char)
    (forceRerun : Bool) (st : Store) : RunResult :=
  match st.testCases.find? (fun tc => decide (tc.id = testCaseId)),
        st.versions.find? (fun v => decide (v.id = promptVersionId)) with
  | some tc, some v =>
      if forceRerun then runFresh gen testCaseId promptVersionId model tc v st
      else
        match st.evaluations.find? (samePair testCaseId promptVersionId) with
        | some e => ⟨st, .ok e, 0⟩
        | none => runFresh gen testCaseId promptVersionId model tc v st
  | _, _ => ⟨st, .error .notFound, 0⟩

/-- Per-pair outcome of a batch (§4.4): skipped, succeeded, or failed. -/
inductive BatchOutcome
  | skipped
  | succeeded
  | failed (err : DomainError)
deriving DecidableEq

/-- One pair of a batch: run it and record the outcome — `skipped` for the
idempotent short-circuit (no generator call), `succeeded` for a fresh result,
`failed` otherwise; a failure never aborts the batch (§4.4, §7). -/
def runOne (gen : Generator) (testCaseId promptVersionId : Nat) (model : List Char)
    (forceRerun : Bool) (acc : Store × List ((Nat × Nat) × BatchOutcome)) :
    Store × List ((Nat × Nat) × BatchOutcome) :=
  let r := run gen testCaseId promptVersionId model forceRerun acc.1
  let outcome :=
    match r.outcome, r.genCalls with
    | .ok _, 0 => BatchOutcome.skipped
    | .ok _, _ => BatchOutcome.succeeded
    | .error err, _ => BatchOutcome.failed err
  (r.store, acc.2 ++ [((testCaseId, promptVersionId), outcome)])

/-- The per-test-case step of `runBatch`: run against the base version, then
against the compare version. -/
def batchStep (gen : Generator) (baseVersionId compareVersionId : Nat) (model : List Char)
    (forceRerun : Bool) (acc : Store × List ((Nat × Nat) × BatchOutcome)) (tc : TestCase) :
    Store × List ((Nat × Nat) × BatchOutcome) :=
  runOne gen tc.id compareVersionId model forceRerun
    (runOne gen tc.id baseVersionId model forceRerun acc)

/-- Modelled from the spec: `runBatch` of §4.4, absent from the repository —
for every TestCase owned by the prompt, run against both versions, skipping
already-evaluated pairs when `forceRerun` is false, collecting per-pair
outcomes. -/
def runBatch (gen : Generator) (promptId baseVersionId compareVersionId : Nat)
    (model : List Char) (forceRerun : Bool) (st : Store) :
    Except DomainError (Store × List ((Nat × Nat) × BatchOutcome)) :=
  if promptId ∈ st.prompts then
    .ok ((testCasesOf promptId st).foldl
          (batchStep gen baseVersionId compareVersionId model forceRerun) (st, []))
  else .error .notFound

/-- A cell of the §4.5 comparison view: the stored Evaluation, or the
explicit NotYetRun marker. -/
inductive CompareCell
  | notYetRun
  | done (e : Evaluation)
deriving DecidableEq

/-- The cell for an optional stored Evaluation. -/
def toCell : Option Evaluation → CompareCell
  | some e => .done e
  | none => .notYetRun

/-- One row of the §4.5 comparison view. -/
structure CompareRow where
  testCase : TestCase
  base : CompareCell
  comp : CompareCell
deriving DecidableEq

/-- Modelled from the spec: `compare` of §4.5, absent from the repository — a
pure read (no mutation by construction) producing one row per TestCase owned
by the prompt, in creation order, with NotYetRun markers for gaps; NotFound
only for an unknown prompt. -/
def compareVersions (promptId baseVersionId compareVersionId : Nat) (st : Store) :
    Except DomainError (List CompareRow) :=
  if promptId ∈ st.prompts then
    .ok ((testCasesOf promptId st).map (fun tc =>
      { testCase := tc
        base := toCell (st.evaluations.find? (samePair tc.id baseVersionId))
        comp := toCell (st.evaluations.find? (samePair tc.id compareVersionId)) }))
  else .error .notFound

/-- The operations of the system boundary (§6) that touch the store, used to
state invariants over every reachable state.  The generator argument carries
the opaque external collaborator. -/
inductive Op
  | createPrompt (title : List Char)
  | createVersion (promptId : Nat) (templateText : List Char)
  | createTestCase (promptId : Nat) (title : List Char) (input : Env)
  | deleteTestCase (testCaseId : Nat)
  | run (gen : Generator) (testCaseId promptVersionId : Nat) (model : List Char)
      (forceRerun : Bool)
  | runBatch (gen : Generator) (promptId baseVersionId compareVersionId : Nat)
      (model : List Char) (forceRerun : Bool)
  | compare (promptId baseVersionId compareVersionId : Nat)

/-- The store left behind by one operation; a failed operation leaves the
store unchanged. -/
def applyOp (st : Store) : Op → Store
  | .createPrompt title =>
      match createPrompt title st with
      | .ok p => p.1
      | .error _ => st
  | .createVersion pid text =>
      match createVersion pid text st with
      | .ok p => p.1
      | .error _ => st
  | .createTestCase pid title input =>
      match createTestCase pid title input st with
      | .ok p => p.1
      | .error _ => st
  | .deleteTestCase tcId =>
      match deleteTestCase tcId st with
      | .ok s => s
      | .error _ => st
  | .run gen tcId vId model force => (run gen tcId vId model force st).store
  | .runBatch gen pid b c model force =>
      match runBatch gen pid b c model force st with
      | .ok p => p.1
      | .error _ => st
  | .compare _ _ _ => st

/-- The store reached by a sequence of operations. -/
def applyOps (ops : List Op) (st : Store) : Store := ops.foldl applyOp st

/-- The number of stored Evaluations for one (test case, version) pair. -/
def pairCount (testCaseId promptVersionId : Nat) (st : Store) : Nat :=
  (st.evaluations.filter (samePair testCaseId promptVersionId)).length

/-- The at-most-one invariant of §3/§8: every pair has 0 or 1 stored
Evaluations. -/
def AtMostOne (st : Store) : Prop := ∀ tcId vId, pairCount tcId vId st ≤ 1

/-- Freshness of the id counter and the creation clock over the versions
table; holds in every reachable store and is what makes `getById` stable and
"latest" well-defined. -/
def VersionsFresh (st : Store) : Prop :=
  (∀ v ∈ st.versions, v.id < st.nextId) ∧ (∀ v ∈ st.versions, v.seq < st.clock)

/-- A small concrete store used by the witnesses: one prompt (id 1) with one
version (id 2) and one test case (id 3), no evaluations yet. -/
def sampleStore : Store :=
  { prompts := [1]
    versions := [⟨2, 1, str "hello \x7b\x7bname\x7d\x7d", 0⟩]
    testCases := [⟨3, 1, str "case", [(str "name", str "World")]⟩]
    evaluations := []
    nextId := 4
    clock := 1 }

/-- A generation collaborator that always succeeds, used by the witnesses. -/
def sampleGen : Generator := fun _ _ => .ok (str "out")

/-- A generation collaborator that always fails, used by the witnesses. -/
def sampleGenFail : Generator := fun _ _ => .error (str "boom")

theorem rangeSpec_nil {k1 k2 : Int} (h : k2 < k1) : rangeSpec k1 k2 = [] := by
  have : (k2 + 1 - k1).toNat = 0 := by omega
  simp [rangeSpec, this]

theorem rangeSpec_cons {k1 k2 : Int} (h : k1 ≤ k2) :
    rangeSpec k1 k2 = noteAt k1 :: rangeSpec (k1 + 1) k2 := by
  unfold rangeSpec
  have h1 : (k2 + 1 - k1).toNat = (k2 + 1 - (k1 + 1)).toNat + 1 := by omega
  rw [h1, List.range_succ_eq_map]
  simp only [List.map_cons, List.map_map, Nat.cast_zero, add_zero]
  congr 1
  apply List.map_congr_left
  intro j _
  simp only [Function.comp_apply]
  congr 1
  push_cast
  ring

theorem rangeSpec_ne_nil {k1 k2 : Int} (h : k1 ≤ k2) : rangeSpec k1 k2 ≠ [] := by
  rw [rangeSpec_cons h]
  simp

/-- The fuel-driven loop agrees with the specification-side range whenever the
fuel dominates the number of remaining iterations; in particular the loop
terminates with the full inclusive range. -/
theorem noteLoop_eq_rangeSpec (eo endIdx : Int) (h0 : 0 ≤ endIdx) (h7 : endIdx < 7) :
    ∀ (fuel ci : Nat) (hci : ci < 7) (co : Int),
      (7 * eo + endIdx + 1 - (7 * co + (ci : Int))).toNat ≤ fuel →
      noteLoop eo endIdx fuel ⟨ci, hci⟩ co =
        rangeSpec (7 * co + (ci : Int)) (7 * eo + endIdx) := by
  intro fuel
  induction fuel with
  | zero =>
      intro ci hci co hf
      have hlt : 7 * eo + endIdx < 7 * co + (ci : Int) := by omega
      simp only [noteLoop]
      rw [rangeSpec_nil hlt]
  | succ fuel ih =>
      intro ci hci co hf
      simp only [noteLoop]
      by_cases hcond : co < eo ∨ (co = eo ∧ (ci : Int) ≤ endIdx)
      · rw [if_pos hcond]
        have hk : 7 * co + (ci : Int) ≤ 7 * eo + endIdx := by omega
        rw [rangeSpec_cons hk]
        have ehead : noteNames.getD ci [] ++ '/' :: intChars co =
            noteAt (7 * co + (ci : Int)) := by
          unfold noteAt
          have e1 : ((7 * co + (ci : Int)) % 7).toNat = ci := by omega
          have e2 : (7 * co + (ci : Int)) / 7 = co := by omega
          rw [e1, e2]
        rw [ehead]
        congr 1
        by_cases hw : ci + 1 ≥ 7
        · rw [dif_pos hw]
          have hrec := ih 0 (by omega) (co + 1) (by push_cast; omega)
          have harg : 7 * (co + 1) + ((0 : Nat) : Int) = 7 * co + (ci : Int) + 1 := by
            push_cast
            omega
          rw [harg] at hrec
          exact hrec
        · rw [dif_neg hw]
          have hrec := ih (ci + 1) (by omega) co (by push_cast; omega)
          have harg : 7 * co + ((ci + 1 : Nat) : Int) = 7 * co + (ci : Int) + 1 := by
            push_cast
            omega
          rw [harg] at hrec
          exact hrec
      · rw [if_neg hcond]
        push_neg at hcond
        have hlt : 7 * eo + endIdx < 7 * co + (ci : Int) := by
          rcases hcond with ⟨h1, h2⟩
          by_cases hco : co = eo
          · have := h2 hco
            omega
          · omega
        rw [rangeSpec_nil hlt]

theorem splitOnChar_of_not_mem {sep : Char} {b : List Char} (hb : sep ∉ b) :
    splitOnChar sep b = [b] := by
  induction b with
  | nil => rfl
  | cons c rest ih =>
      have hc : c ≠ sep := fun h => hb (h ▸ List.mem_cons_self c rest)
      have hrest : sep ∉ rest := fun h => hb (List.mem_cons_of_mem c h)
      simp only [splitOnChar, if_neg hc, ih hrest]

theorem splitOnChar_append {sep : Char} {a : List Char} (b : List Char) (ha : sep ∉ a) :
    splitOnChar sep (a ++ sep :: b) = a :: splitOnChar sep b := by
  induction a with
  | nil => simp [splitOnChar]
  | cons c a' ih =>
      have hc : c ≠ sep := fun h => ha (h ▸ List.mem_cons_self c a')
      have ha' : sep ∉ a' := fun h => ha (List.mem_cons_of_mem c h)
      simp only [List.cons_append, splitOnChar, if_neg hc]
      rw [List.append_eq, ih ha']

theorem natNumAux_digits {l : List Char} {acc n : Nat} (h : natNumAux l acc = some n) :
    ∀ c ∈ l, '0' ≤ c ∧ c ≤ '9' := by
  induction l generalizing acc with
  | nil => simp
  | cons c rest ih =>
      intro x hx
      simp only [natNumAux] at h
      cases hd : digitVal? c with
      | none => rw [hd] at h; exact absurd h (by simp)
      | some d =>
          rw [hd] at h
          rcases List.mem_cons.mp hx with rfl | hx'
          · unfold digitVal? at hd
            by_cases hb : '0' ≤ x ∧ x ≤ '9'
            · exact hb
            · rw [if_neg hb] at hd; exact absurd hd (by simp)
          · exact ih h x hx'

theorem jsNumber?_ne_nil {s : List Char} {o : Int} (h : jsNumber? s = some o) : s ≠ [] := by
  intro hs
  rw [hs] at h
  simp [jsNumber?] at h

theorem jsNumber?_no_slash {s : List Char} {o : Int} (h : jsNumber? s = some o) : '/' ∉ s := by
  intro hmem
  match s, hmem with
  | c :: rest, hmem =>
      simp only [jsNumber?] at h
      by_cases hc : c = '-'
      · rw [if_pos hc] at h
        by_cases hr : rest = []
        · rw [if_pos hr] at h; exact absurd h (by simp)
        · rw [if_neg hr] at h
          cases hnn : natNumAux rest 0 with
          | none => rw [hnn] at h; exact absurd h (by simp)
          | some m =>
              rcases List.mem_cons.mp hmem with hcc | hrest
              · rw [hc] at hcc; exact absurd hcc (by decide)
              · exact absurd (natNumAux_digits hnn '/' hrest) (by decide)
      · rw [if_neg hc] at h
        cases hnn : natNumAux (c :: rest) 0 with
        | none => rw [hnn] at h; exact absurd h (by simp)
        | some m => exact absurd (natNumAux_digits hnn '/' hmem) (by decide)

theorem jsIndexOf_nonneg {x : List Char} {l : List (List Char)} (h : x ∈ l) :
    0 ≤ jsIndexOf x l := by
  induction l with
  | nil => exact absurd h (by simp)
  | cons y rest ih =>
      simp only [jsIndexOf]
      by_cases hy : y = x
      · simp [hy]
      · rw [if_neg hy]
        have hx : x ∈ rest := by
          rcases List.mem_cons.mp h with h' | h'
          · exact absurd h'.symm hy
          · exact h'
        have := ih hx
        have hne : ¬ jsIndexOf x rest = -1 := by omega
        rw [if_neg hne]
        omega

theorem noteNames_no_slash : ∀ n ∈ noteNames, '/' ∉ n ∧ n ≠ [] := by decide

/-- Claim C8, counterexample: the claim states that an unknown note name
yields the empty list, but the source checks `indexOf === -1` only for the
START note name.  With start `"c/4"` and end `"x/5"` — whose name `"x"` is
not a note name — the loop still runs through octave 4 and returns a
non-empty list. -/
theorem claim_C8_counterexample :
    str "x" ∉ noteNames ∧
    jsIndexOf ((splitOnChar '/' (str "x/5")).getD 0 []) noteNames = -1 ∧
    generateNoteRange (str "c/4") (str "x/5") =
      [str "c/4", str "d/4", str "e/4", str "f/4", str "g/4", str "a/4", str "b/4"] ∧
    generateNoteRange (str "c/4") (str "x/5") ≠ [] := by
  refine ⟨by decide, by decide, by decide, by decide⟩

/-- Claim C8 (amended).  Valid ranges: for start and end notes written
`name/octave` with names among c,d,e,f,g,a,b and numeric octaves, with the
start not after the end in the order that steps through c,d,e,f,g,a,b and
increments the octave after b, `generateNoteRange` terminates and returns the
non-empty ascending inclusive list of notes (`rangeSpec`).  Malformed input:
a missing `/` part, an empty name or octave part, or an unknown START note
name yields the empty list; an unknown END note name does not in general (see
the counterexample). -/
theorem claim_C8_amended :
    (∀ n1 ∈ noteNames, ∀ n2 ∈ noteNames, ∀ (s1 s2 : List Char) (o1 o2 : Int),
      jsNumber? s1 = some o1 → jsNumber? s2 = some o2 →
      7 * o1 + jsIndexOf n1 noteNames ≤ 7 * o2 + jsIndexOf n2 noteNames →
      generateNoteRange (n1 ++ '/' :: s1) (n2 ++ '/' :: s2) =
        rangeSpec (7 * o1 + jsIndexOf n1 noteNames) (7 * o2 + jsIndexOf n2 noteNames) ∧
      generateNoteRange (n1 ++ '/' :: s1) (n2 ++ '/' :: s2) ≠ []) ∧
    (∀ s e, (splitOnChar '/' s).length < 2 ∨ (splitOnChar '/' e).length < 2 →
      generateNoteRange s e = []) ∧
    (∀ s e, ((splitOnChar '/' s).getD 0 [] = [] ∨ (splitOnChar '/' s).getD 1 [] = [] ∨
             (splitOnChar '/' e).getD 0 [] = [] ∨ (splitOnChar '/' e).getD 1 [] = []) →
      generateNoteRange s e = []) ∧
    (∀ s e, ¬ ((splitOnChar '/' s).length < 2 ∨ (splitOnChar '/' e).length < 2) →
      jsIndexOf ((splitOnChar '/' s).getD 0 []) noteNames = -1 →
      generateNoteRange s e = []) := by
  refine ⟨?_, ?_, ?_, ?_⟩
  · intro n1 hn1 n2 hn2 s1 s2 o1 o2 h1 h2 hord
    obtain ⟨hsl1n, hne1⟩ := noteNames_no_slash n1 hn1
    obtain ⟨hsl2n, hne2⟩ := noteNames_no_slash n2 hn2
    have hsl1 : '/' ∉ s1 := jsNumber?_no_slash h1
    have hsl2 : '/' ∉ s2 := jsNumber?_no_slash h2
    have hs1ne : s1 ≠ [] := jsNumber?_ne_nil h1
    have hs2ne : s2 ≠ [] := jsNumber?_ne_nil h2
    have hsp1 : splitOnChar '/' (n1 ++ '/' :: s1) = [n1, s1] := by
      rw [splitOnChar_append s1 hsl1n, splitOnChar_of_not_mem hsl1]
    have hsp2 : splitOnChar '/' (n2 ++ '/' :: s2) = [n2, s2] := by
      rw [splitOnChar_append s2 hsl2n, splitOnChar_of_not_mem hsl2]
    have hi1 := jsIndexOf_nonneg hn1
    have hi2 := jsIndexOf_nonneg hn2
    have hb1 : jsIndexOf n1 noteNames < 7 := by
      rcases jsIndexOf_bound n1 noteNames with h | h
      · omega
      · have h7 : noteNames.length = 7 := rfl
        omega
    have hb2 : jsIndexOf n2 noteNames < 7 := by
      rcases jsIndexOf_bound n2 noteNames with h | h
      · omega
      · have h7 : noteNames.length = 7 := rfl
        omega
    have hmain : generateNoteRange (n1 ++ '/' :: s1) (n2 ++ '/' :: s2) =
        rangeSpec (7 * o1 + jsIndexOf n1 noteNames) (7 * o2 + jsIndexOf n2 noteNames) := by
      simp only [generateNoteRange, hsp1, hsp2, List.getD_cons_zero, List.getD_cons_succ]
      rw [if_neg (by simp)]
      rw [if_neg (by simp [hne1, hs1ne, hne2, hs2ne])]
      rw [dif_neg (by omega)]
      simp only [h1, h2]
      have htn : (((jsIndexOf n1 noteNames).toNat : Int)) = jsIndexOf n1 noteNames :=
        Int.toNat_of_nonneg hi1
      have happ := noteLoop_eq_rangeSpec o2 (jsIndexOf n2 noteNames) hi2 hb2
        (((o2 - o1) * 7 + 7).toNat) (jsIndexOf n1 noteNames).toNat (by omega) o1 (by omega)
      exact happ.trans (by rw [htn])
    refine ⟨hmain, ?_⟩
    rw [hmain]
    exact rangeSpec_ne_nil (by omega)
  · intro s e h
    simp only [generateNoteRange]
    rw [if_pos h]
  · intro s e h
    simp only [generateNoteRange]
    by_cases hlen : (splitOnChar '/' s).length < 2 ∨ (splitOnChar '/' e).length < 2
    · rw [if_pos hlen]
    · rw [if_neg hlen, if_pos h]
  · intro s e hlen h
    simp only [generateNoteRange]
    rw [if_neg hlen]
    by_cases hemp : (splitOnChar '/' s).getD 0 [] = [] ∨ (splitOnChar '/' s).getD 1 [] = [] ∨
        (splitOnChar '/' e).getD 0 [] = [] ∨ (splitOnChar '/' e).getD 1 [] = []
    · rw [if_pos hemp]
    · rw [if_neg hemp, dif_pos h]

/-- Witness for the amended claim C8 at a concrete valid range. -/
theorem claim_C8_witness :
    generateNoteRange (str "c/4") (str "e/4") = [str "c/4", str "d/4", str "e/4"] := by
  have h := (claim_C8_amended.1 (str "c") (by decide) (str "e") (by decide)
      (str "4") (str "4") 4 4 (by decide) (by decide) (by decide)).1
  have e1 : str "c" ++ '/' :: str "4" = str "c/4" := by decide
  have e2 : str "e" ++ '/' :: str "4" = str "e/4" := by decide
  rw [e1, e2] at h
  rw [h]
  decide

theorem nodup_all_eq {l : List (List Char)} (hnd : l.Nodup) (x : List Char)
    (hall : ∀ y ∈ l, y = x) : l.length ≤ 1 := by
  cases l with
  | nil => simp
  | cons a tail =>
      cases tail with
      | nil => simp
      | cons b rest =>
          exfalso
          have ha := hall a (by simp)
          have hb := hall b (by simp)
          rw [List.nodup_cons] at hnd
          exact hnd.1 (by rw [ha, hb]; exact List.mem_cons_self x rest)

/-- Claim C9: after every call of `generateNewNote` (modelled with the random
index it draws, which is always below the candidate-list length), the shown
note belongs to the pool of the selected clef, the feedback is reset to
waiting, the previous note is the note that was current before the call, the
shown clef is the chosen clef setting, and — when the pool has more than one
note — the new note differs from the one shown before. -/
theorem claim_C9_thm (st : AppState) (k : Nat)
    (h : k < (notesToChooseFromOf st).length) :
    (generateNewNote k st).currentNote ∈ notePoolOf st.clefSetting ∧
    (generateNewNote k st).feedback = .waiting ∧
    (generateNewNote k st).previousNote = st.currentNote ∧
    (generateNewNote k st).currentClef = st.clefSetting ∧
    (1 < (notePoolOf st.clefSetting).length →
      (generateNewNote k st).currentNote ≠ st.currentNote) := by
  obtain ⟨sel, hsel⟩ : ∃ sel, (notesToChooseFromOf st)[k]? = some sel :=
    ⟨_, List.getElem?_eq_getElem h⟩
  have hmem : sel ∈ notesToChooseFromOf st := List.getElem?_mem hsel
  have hres : generateNewNote k st =
      { st with
        feedback := .waiting
        currentClef := st.clefSetting
        previousNote := st.currentNote
        currentNote := sel } := by
    simp only [generateNewNote, hsel]
  rw [hres]
  refine ⟨?_, rfl, rfl, rfl, ?_⟩
  · unfold notesToChooseFromOf at hmem
    by_cases havail : (availableNotesOf st).length > 0
    · rw [if_pos havail] at hmem
      exact List.mem_of_mem_filter hmem
    · rw [if_neg havail] at hmem
      exact hmem
  · intro hpool
    unfold notesToChooseFromOf at hmem
    by_cases havail : (availableNotesOf st).length > 0
    · rw [if_pos havail] at hmem
      have := (List.mem_filter.mp hmem).2
      simpa using this
    · exfalso
      have hnil : availableNotesOf st = [] := List.length_eq_zero.mp (by omega)
      have hall : ∀ x ∈ notePoolOf st.clefSetting, x = st.currentNote := by
        intro x hx
        have hx' := List.filter_eq_nil_iff.mp hnil x hx
        simpa using hx'
      have hnodup : (notePoolOf st.clefSetting).Nodup := by
        cases hc : st.clefSetting <;> decide
      have := nodup_all_eq hnodup st.currentNote hall
      omega

/-- Witness for claim C9 at a concrete state and random index. -/
theorem claim_C9_witness :
    0 < (notesToChooseFromOf ⟨str "c/4", [], .treble, .treble, .waiting⟩).length ∧
    ((generateNewNote 0 ⟨str "c/4", [], .treble, .treble, .waiting⟩).currentNote ∈
        notePoolOf (AppState.mk (str "c/4") [] .treble .treble .waiting).clefSetting ∧
      (generateNewNote 0 ⟨str "c/4", [], .treble, .treble, .waiting⟩).feedback = .waiting ∧
      (generateNewNote 0 ⟨str "c/4", [], .treble, .treble, .waiting⟩).previousNote =
        (AppState.mk (str "c/4") [] .treble .treble .waiting).currentNote ∧
      (generateNewNote 0 ⟨str "c/4", [], .treble, .treble, .waiting⟩).currentClef =
        (AppState.mk (str "c/4") [] .treble .treble .waiting).clefSetting ∧
      (1 < (notePoolOf (AppState.mk (str "c/4") [] .treble .treble .waiting).clefSetting).length →
        (generateNewNote 0 ⟨str "c/4", [], .treble, .treble, .waiting⟩).currentNote ≠
          (AppState.mk (str "c/4") [] .treble .treble .waiting).currentNote)) :=
  ⟨by decide, claim_C9_thm ⟨str "c/4", [], .treble, .treble, .waiting⟩ 0 (by decide)⟩

/-- Claim C10: `handleGuess` returns immediately with the state unchanged
when the feedback is already `correct`; otherwise it judges the guess correct
exactly when the lowercased guess equals the first character of the current
note (`charAt(0)`) — the octave and the rest of the note string are ignored —
setting the feedback to `correct`, and to `incorrect` otherwise.  The
`setTimeout` continuations of the source are asynchronous and outside this
synchronous transition. -/
theorem claim_C10_thm (st : AppState) (guess : List Char) :
    (st.feedback = .correct → handleGuess guess st = st) ∧
    (st.feedback ≠ .correct →
      handleGuess guess st =
        { st with
            feedback := if jsToLower guess = st.currentNote.take 1 then .correct
                        else .incorrect }) ∧
    (∀ c rest, st.currentNote = c :: rest → st.feedback ≠ .correct →
      ((handleGuess guess st).feedback = .correct ↔ jsToLower guess = [c])) := by
  refine ⟨?_, ?_, ?_⟩
  · intro hfb
    simp only [handleGuess, if_pos hfb]
  · intro hfb
    simp only [handleGuess, if_neg hfb]
    by_cases hg : jsToLower guess = st.currentNote.take 1
    · rw [if_pos hg, if_pos hg]
    · rw [if_neg hg, if_neg hg]
  · intro c rest hcn hfb
    have htake : st.currentNote.take 1 = [c] := by rw [hcn]; simp
    simp only [handleGuess, if_neg hfb, htake]
    by_cases hg : jsToLower guess = [c]
    · rw [if_pos hg]
      simp [hg]
    · rw [if_neg hg]
      simp [hg]

/-- Witness for claim C10: guessing the letter of the shown note `c/4` while
waiting sets the feedback to correct. -/
theorem claim_C10_witness :
    handleGuess (str "c") ⟨str "c/4", [], .treble, .treble, .waiting⟩ =
      { AppState.mk (str "c/4") [] .treble .treble .waiting with feedback := .correct } := by
  have h := (claim_C10_thm ⟨str "c/4", [], .treble, .treble, .waiting⟩ (str "c")).2.1
    (by decide)
  rw [h]
  decide

theorem renderToks_cons (env : Env) (t : Tok) (ts : List Tok) :
    renderToks env (t :: ts) = renderTok env t ++ renderToks env ts := by
  simp [renderToks]

theorem renderToks_lits (env : Env) (l : List Char) :
    renderToks env (l.map .lit) = l := by
  induction l with
  | nil => rfl
  | cons c rest ih => simp [renderToks, renderTok] at ih ⊢; exact ih

theorem phNames_ph (n : List Char) (ts : List Tok) :
    phNames (.ph n :: ts) = n :: phNames ts := by
  simp [phNames]

theorem phNames_lit (c : Char) (ts : List Tok) :
    phNames (.lit c :: ts) = phNames ts := by
  simp [phNames]

theorem phNames_lits (l : List Char) : phNames (l.map .lit) = [] := by
  induction l with
  | nil => rfl
  | cons c rest _ => simp [phNames]

/-- The scanning resolver agrees with the declarative tokenize-then-render
reading at every fuel level: the rendered text is the concatenated rendering
of the tokens, and the collected names are the placeholder names. -/
theorem resolveAux_eq (env : Env) : ∀ (fuel : Nat) (l : List Char),
    resolveAux env fuel l = (renderToks env (tokenize fuel l), phNames (tokenize fuel l)) := by
  intro fuel l
  induction fuel, l using resolveAux.induct env with
  | case1 fuel => simp [resolveAux, tokenize, renderToks, phNames]
  | case2 l h => simp [resolveAux, tokenize, renderToks_lits, phNames_lits]
  | case3 fuel rest name rest' hfc v hv ih =>
      simp [resolveAux, tokenize, hfc, hv, ih, renderToks_cons, renderTok, phNames_ph]
  | case4 fuel rest name rest' hfc hv ih =>
      simp [resolveAux, tokenize, hfc, hv, ih, renderToks_cons, renderTok, phNames_ph]
  | case5 fuel rest hfc =>
      simp [resolveAux, tokenize, hfc, renderToks_cons, renderTok, renderToks_lits,
        phNames_lit, phNames_lits]
  | case6 fuel c rest hshape ih =>
      simp [resolveAux, tokenize, hshape, ih, renderToks_cons, renderTok, phNames_lit]

/-- Claim C1: for every template and input mapping the Variable Resolver
substitutes each placeholder whose name is present in the mapping with the
mapped value verbatim, leaves each placeholder whose name is absent unchanged
in the output, and — being a total function into `ResolveResult` — never
raises an error for a mismatch; in particular the spec's worked example
resolves as stated. -/
theorem claim_C1_thm :
    (∀ (tpl : List Char) (env : Env),
      (resolve tpl env).rendered = renderToks env (tokenize tpl.length tpl)) ∧
    (∀ (env : Env) (name : List Char),
      (∀ v, envLookup name env = some v → renderTok env (.ph name) = v) ∧
      (envLookup name env = none →
        renderTok env (.ph name) = '{' :: '{' :: (name ++ ['}', '}']))) ∧
    resolve (str "Hi \x7b\x7buser\x7d\x7d, welcome to \x7b\x7bstore\x7d\x7d!")
        [(str "user", str "John"), (str "extra", str "ignored")] =
      { rendered := str "Hi John, welcome to \x7b\x7bstore\x7d\x7d!"
        missingInTemplate := [str "extra"]
        missingInInput := [str "store"] } := by
  refine ⟨?_, ?_, ?_⟩
  · intro tpl env
    simp [resolve, resolveAux_eq]
  · intro env name
    constructor
    · intro v hv
      simp [renderTok, hv]
    · intro hn
      simp [renderTok, hn]
  · decide

/-- Witness for claim C1 at a concrete template and mapping (present and
absent placeholders). -/
theorem claim_C1_witness :
    envLookup (str "x") [(str "x", str "B")] = some (str "B") ∧
    renderTok [(str "x", str "B")] (.ph (str "x")) = str "B" := by
  refine ⟨by decide, ?_⟩
  exact (claim_C1_thm.2.1 [(str "x", str "B")] (str "x")).1 (str "B") (by decide)

/-- Claim C7: the diagnostic report of the Variable Resolver is exactly as
specified — `missingInTemplate` is the set of input keys matching no
placeholder of the template, `missingInInput` is the set of placeholder names
with no input key, and with an empty mapping every placeholder name of the
template appears in `missingInInput`. -/
theorem claim_C7_thm :
    ∀ (tpl : List Char) (env : Env),
      (∀ k, k ∈ (resolve tpl env).missingInTemplate ↔
        k ∈ env.map Prod.fst ∧ k ∉ phNames (tokenize tpl.length tpl)) ∧
      (∀ n, n ∈ (resolve tpl env).missingInInput ↔
        n ∈ phNames (tokenize tpl.length tpl) ∧ envLookup n env = none) ∧
      (env = [] → ∀ n, n ∈ phNames (tokenize tpl.length tpl) →
        n ∈ (resolve tpl env).missingInInput) := by
  intro tpl env
  have h2 : ∀ n, n ∈ (resolve tpl env).missingInInput ↔
      n ∈ phNames (tokenize tpl.length tpl) ∧ envLookup n env = none := by
    intro n
    simp [resolve, resolveAux_eq, List.mem_dedup, List.mem_filter,
      Option.isNone_iff_eq_none]
  refine ⟨?_, h2, ?_⟩
  · intro k
    simp [resolve, resolveAux_eq, List.mem_dedup, List.mem_filter]
  · intro henv n hn
    subst henv
    exact (h2 n).mpr ⟨hn, rfl⟩

/-- Witness for claim C7 at a concrete template with an empty mapping: the
placeholder name is reported in `missingInInput`. -/
theorem claim_C7_witness :
    str "user" ∈ phNames (tokenize (str "hi \x7b\x7buser\x7d\x7d").length
        (str "hi \x7b\x7buser\x7d\x7d")) ∧
    str "user" ∈ (resolve (str "hi \x7b\x7buser\x7d\x7d") []).missingInInput := by
  refine ⟨by decide, ?_⟩
  exact (claim_C7_thm (str "hi \x7b\x7buser\x7d\x7d") []).2.2 rfl (str "user") (by decide)

theorem atMostOne_keep {st : Store} (h : AtMostOne st) {st' : Store}
    (he : st'.evaluations = st.evaluations) : AtMostOne st' := by
  intro a b
  unfold pairCount
  rw [he]
  exact h a b

theorem atMostOne_filter {st : Store} (h : AtMostOne st) {st' : Store} {p : Evaluation → Bool}
    (he : st'.evaluations = st.evaluations.filter p) : AtMostOne st' := by
  intro a b
  unfold pairCount
  rw [he]
  exact le_trans ((List.filter_sublist _).filter _).length_le (h a b)

theorem atMostOne_replace {st : Store} (h : AtMostOne st) (tcId vId : Nat) {st' : Store}
    {e : Evaluation} (he : samePair tcId vId e = true)
    (hevals : st'.evaluations =
      e :: st.evaluations.filter (fun x => ! samePair tcId vId x)) :
    AtMostOne st' := by
  intro a b
  unfold pairCount
  rw [hevals, List.filter_cons]
  by_cases hab : samePair a b e = true
  · rw [if_pos hab]
    have hnil : (st.evaluations.filter (fun x => ! samePair tcId vId x)).filter
        (samePair a b) = [] := by
      apply List.filter_eq_nil_iff.mpr
      intro x hx
      have hx2 := (List.mem_filter.mp hx).2
      have he' : e.testCaseId = tcId ∧ e.promptVersionId = vId := by
        simpa [samePair] using he
      have hab' : e.testCaseId = a ∧ e.promptVersionId = b := by
        simpa [samePair] using hab
      have hx2' : ¬ x.testCaseId = tcId ∨ ¬ x.promptVersionId = vId := by
        simpa [samePair] using hx2
      simp only [samePair, decide_eq_true_eq]
      intro hcon
      obtain ⟨hc1, hc2⟩ := hcon
      obtain ⟨he1, he2⟩ := he'
      obtain ⟨ha1, ha2⟩ := hab'
      rcases hx2' with hx3 | hx3
      · exact hx3 (by omega)
      · exact hx3 (by omega)
    rw [hnil]
    simp
  · rw [if_neg hab]
    exact le_trans ((List.filter_sublist _).filter _).length_le (h a b)

theorem runFresh_preserves {st : Store} (h : AtMostOne st) (gen : Generator)
    (tcId vId : Nat) (model : List Char) (tc : TestCase) (v : PromptVersion) :
    AtMostOne (runFresh gen tcId vId model tc v st).store := by
  simp only [runFresh]
  cases hg : gen (resolve v.template tc.input).rendered model with
  | error r => exact h
  | ok out =>
      refine atMostOne_replace h tcId vId ?_ rfl
      simp [samePair]

theorem run_preserves {st : Store} (h : AtMostOne st) (gen : Generator) (tcId vId : Nat)
    (model : List Char) (force : Bool) :
    AtMostOne (run gen tcId vId model force st).store := by
  cases htc : st.testCases.find? (fun x => decide (x.id = tcId)) with
  | none =>
      cases hv : st.versions.find? (fun x => decide (x.id = vId)) with
      | none => simp only [run, htc, hv]; exact h
      | some v => simp only [run, htc, hv]; exact h
  | some tc =>
      cases hv : st.versions.find? (fun x => decide (x.id = vId)) with
      | none => simp only [run, htc, hv]; exact h
      | some v =>
          simp only [run, htc, hv]
          cases force with
          | true => simp only [if_true]; exact runFresh_preserves h gen tcId vId model tc v
          | false =>
              simp only [Bool.false_eq_true, if_false]
              cases hE : st.evaluations.find? (samePair tcId vId) with
              | some e => exact h
              | none => exact runFresh_preserves h gen tcId vId model tc v

theorem batch_fold_preserves (gen : Generator) (b c : Nat) (model : List Char)
    (force : Bool) :
    ∀ (l : List TestCase) (acc : Store × List ((Nat × Nat) × BatchOutcome)),
      AtMostOne acc.1 →
      AtMostOne ((l.foldl (batchStep gen b c model force) acc).1) := by
  intro l
  induction l with
  | nil => intro acc h; exact h
  | cons tc rest ih =>
      intro acc h
      simp only [List.foldl_cons]
      apply ih
      show AtMostOne
        (run gen tc.id c model force (run gen tc.id b model force acc.1).store).store
      exact run_preserves (run_preserves h gen tc.id b model force) gen tc.id c model force

theorem applyOp_preserves {st : Store} (h : AtMostOne st) (op : Op) :
    AtMostOne (applyOp st op) := by
  cases op with
  | createPrompt title =>
      simp only [applyOp]
      split
      · next p heq =>
          simp only [createPrompt] at heq
          split at heq
          · exact absurd heq (by simp)
          · injection heq with h2
            subst h2
            exact atMostOne_keep h rfl
      · next heq => exact h
  | createVersion pid text =>
      simp only [applyOp]
      split
      · next p heq =>
          simp only [createVersion] at heq
          split at heq
          · injection heq with h2
            subst h2
            exact atMostOne_keep h rfl
          · exact absurd heq (by simp)
      · next heq => exact h
  | createTestCase pid title input =>
      simp only [applyOp]
      split
      · next p heq =>
          simp only [createTestCase] at heq
          split at heq
          · split at heq
            · exact absurd heq (by simp)
            · injection heq with h2
              subst h2
              exact atMostOne_keep h rfl
          · exact absurd heq (by simp)
      · next heq => exact h
  | deleteTestCase tcId =>
      simp only [applyOp]
      split
      · next s heq =>
          simp only [deleteTestCase] at heq
          split at heq
          · injection heq with h2
            subst h2
            exact atMostOne_filter h rfl
          · exact absurd heq (by simp)
      · next heq => exact h
  | run gen tcId vId model force => exact run_preserves h gen tcId vId model force
  | runBatch gen pid b c model force =>
      simp only [applyOp]
      split
      · next p heq =>
          simp only [runBatch] at heq
          split at heq
          · injection heq with h2
            subst h2
            exact batch_fold_preserves gen b c model force _ (st, []) h
          · exact absurd heq (by simp)
      · next heq => exact h
  | compare pid b c => exact h

theorem applyOps_preserves : ∀ (ops : List Op) (st : Store),
    AtMostOne st → AtMostOne (applyOps ops st) := by
  intro ops
  induction ops with
  | nil => intro st h; exact h
  | cons op rest ih =>
      intro st h
      simp only [applyOps, List.foldl_cons] at *
      exact ih _ (applyOp_preserves h op)

/-- Claim C2: the at-most-one invariant holds at every observable point — in
every store reachable from the empty store by any sequence of operations —
and every single operation preserves it. -/
theorem claim_C2_thm :
    (∀ ops : List Op, AtMostOne (applyOps ops emptyStore)) ∧
    (∀ (st : Store) (op : Op), AtMostOne st → AtMostOne (applyOp st op)) := by
  constructor
  · intro ops
    apply applyOps_preserves
    intro a b
    simp [pairCount, emptyStore]
  · intro st op h
    exact applyOp_preserves h op

/-- Witness for claim C2: one concrete run on the sample store keeps every
pair count at or below one. -/
theorem claim_C2_witness :
    pairCount 3 2 (applyOp sampleStore (Op.run sampleGen 3 2 (str "m") false)) ≤ 1 :=
  claim_C2_thm.2 sampleStore (Op.run sampleGen 3 2 (str "m") false)
    (by intro a b; simp [pairCount, sampleStore]) 3 2

/-- Claim C3: `run` with `forceRerun = false` is idempotent.  When an
Evaluation already exists for the pair (and the fetch succeeds), `run`
returns it unchanged, leaves the store unchanged and makes no generation
call; from a state with no prior Evaluation, a second call returns the store
and outcome of the first, with exactly one generation call across the two
invocations (one on the first call, none on the second). -/
theorem claim_C3_thm :
    (∀ (gen : Generator) (tcId vId : Nat) (model : List Char) (st : Store)
        (tc : TestCase) (v : PromptVersion) (e : Evaluation),
      st.testCases.find? (fun x => decide (x.id = tcId)) = some tc →
      st.versions.find? (fun x => decide (x.id = vId)) = some v →
      st.evaluations.find? (samePair tcId vId) = some e →
      run gen tcId vId model false st = ⟨st, .ok e, 0⟩) ∧
    (∀ (gen : Generator) (tcId vId : Nat) (model : List Char) (st : Store)
        (tc : TestCase) (v : PromptVersion) (out : List Char),
      st.testCases.find? (fun x => decide (x.id = tcId)) = some tc →
      st.versions.find? (fun x => decide (x.id = vId)) = some v →
      st.evaluations.find? (samePair tcId vId) = none →
      gen (resolve v.template tc.input).rendered model = .ok out →
      (run gen tcId vId model false ((run gen tcId vId model false st).store)).store =
          (run gen tcId vId model false st).store ∧
      (run gen tcId vId model false ((run gen tcId vId model false st).store)).outcome =
          (run gen tcId vId model false st).outcome ∧
      (run gen tcId vId model false st).genCalls = 1 ∧
      (run gen tcId vId model false ((run gen tcId vId model false st).store)).genCalls = 0) := by
  constructor
  · intro gen tcId vId model st tc v e htc hv hE
    simp [run, htc, hv, hE]
  · intro gen tcId vId model st tc v out htc hv hE hgen
    have hr1 : run gen tcId vId model false st =
        ⟨{ st with
            evaluations :=
              (⟨st.nextId, tcId, vId, (resolve v.template tc.input).rendered, out, model,
                st.clock⟩ : Evaluation) ::
                st.evaluations.filter (fun x => ! samePair tcId vId x)
            nextId := st.nextId + 1
            clock := st.clock + 1 },
          .ok ⟨st.nextId, tcId, vId, (resolve v.template tc.input).rendered, out, model,
            st.clock⟩, 1⟩ := by
      simp [run, htc, hv, hE, runFresh, hgen]
    rw [hr1]
    simp [run, samePair, htc, hv]

/-- Witness for claim C3: on the sample store (no prior Evaluation), the
second run changes nothing and the first run made the single generation
call. -/
theorem claim_C3_witness :
    (run sampleGen 3 2 (str "m") false
        ((run sampleGen 3 2 (str "m") false sampleStore).store)).store =
      (run sampleGen 3 2 (str "m") false sampleStore).store ∧
    (run sampleGen 3 2 (str "m") false sampleStore).genCalls = 1 ∧
    (run sampleGen 3 2 (str "m") false
        ((run sampleGen 3 2 (str "m") false sampleStore).store)).genCalls = 0 := by
  have h := claim_C3_thm.2 sampleGen 3 2 (str "m") sampleStore
    ⟨3, 1, str "case", [(str "name", str "World")]⟩
    ⟨2, 1, str "hello \x7b\x7bname\x7d\x7d", 0⟩ (str "out") rfl rfl rfl rfl
  exact ⟨h.1, h.2.2.1, h.2.2.2⟩

/-- Claim C4: when the generation call fails, `run` reports GenerationFailed,
performs no write — the store (and in particular every stored Evaluation) is
exactly as before — and makes exactly one generation call (no retry).  The
hypothesis covers precisely the states in which the generator is reached:
either a forced rerun or no existing Evaluation for the pair. -/
theorem claim_C4_thm :
    ∀ (gen : Generator) (tcId vId : Nat) (model : List Char) (force : Bool) (st : Store)
      (tc : TestCase) (v : PromptVersion) (reason : List Char),
      st.testCases.find? (fun x => decide (x.id = tcId)) = some tc →
      st.versions.find? (fun x => decide (x.id = vId)) = some v →
      gen (resolve v.template tc.input).rendered model = .error reason →
      (force = true ∨ st.evaluations.find? (samePair tcId vId) = none) →
      run gen tcId vId model force st = ⟨st, .error (.generationFailed reason), 1⟩ ∧
      (run gen tcId vId model force st).store.evaluations = st.evaluations := by
  intro gen tcId vId model force st tc v reason htc hv hgen hcase
  have hmain : run gen tcId vId model force st =
      ⟨st, .error (.generationFailed reason), 1⟩ := by
    rcases hcase with hf | hE
    · subst hf
      simp [run, htc, hv, runFresh, hgen]
    · cases force
      · simp [run, htc, hv, hE, runFresh, hgen]
      · simp [run, htc, hv, runFresh, hgen]
  exact ⟨hmain, by rw [hmain]⟩

/-- Witness for claim C4: a failing generator on the sample store reports the
failure and leaves the store untouched after one call. -/
theorem claim_C4_witness :
    run sampleGenFail 3 2 (str "m") false sampleStore =
      ⟨sampleStore, .error (.generationFailed (str "boom")), 1⟩ :=
  (claim_C4_thm sampleGenFail 3 2 (str "m") false sampleStore
    ⟨3, 1, str "case", [(str "name", str "World")]⟩
    ⟨2, 1, str "hello \x7b\x7bname\x7d\x7d", 0⟩ (str "boom") rfl rfl rfl (Or.inr rfl)).1

theorem createVersion_ok {p : Nat} {t : List Char} {st stA : Store} {vA : PromptVersion}
    (h : createVersion p t st = .ok (stA, vA)) :
    p ∈ st.prompts ∧
    vA = ⟨st.nextId, p, t, st.clock⟩ ∧
    stA = { st with
            versions := st.versions ++ [⟨st.nextId, p, t, st.clock⟩]
            nextId := st.nextId + 1
            clock := st.clock + 1 } := by
  by_cases hp : p ∈ st.prompts
  · simp only [createVersion, if_pos hp, Except.ok.injEq, Prod.mk.injEq] at h
    exact ⟨hp, h.2.symm, h.1.symm⟩
  · simp [createVersion, hp] at h

theorem find?_append_of_none {α : Type} {p : α → Bool} :
    ∀ (l1 l2 : List α), l1.find? p = none → (l1 ++ l2).find? p = l2.find? p := by
  intro l1
  induction l1 with
  | nil => intro l2 _; rfl
  | cons a rest ih =>
      intro l2 h
      cases hpa : p a with
      | true =>
          rw [List.find?_cons_of_pos _ hpa] at h
          exact absurd h (by simp)
      | false =>
          rw [List.find?_cons_of_neg _ (by simp [hpa])] at h
          rw [List.cons_append, List.find?_cons_of_neg _ (by simp [hpa])]
          exact ih l2 h

theorem maxBySeq_mem : ∀ (l : List PromptVersion) (v : PromptVersion),
    maxBySeq v l ∈ v :: l := by
  intro l
  induction l with
  | nil => intro v; simp [maxBySeq]
  | cons x rest ih =>
      intro v
      simp only [maxBySeq]
      have h := ih (if v.seq < x.seq then x else v)
      rcases List.mem_cons.mp h with h1 | h1
      · rw [h1]
        by_cases hlt : v.seq < x.seq
        · simp [hlt]
        · simp [hlt]
      · exact List.mem_cons_of_mem _ (List.mem_cons_of_mem _ h1)

theorem maxBySeq_le : ∀ (l : List PromptVersion) (v u : PromptVersion),
    u ∈ v :: l → u.seq ≤ (maxBySeq v l).seq := by
  intro l
  induction l with
  | nil =>
      intro v u hu
      rcases List.mem_cons.mp hu with rfl | h
      · simp [maxBySeq]
      · exact absurd h (by simp)
  | cons x rest ih =>
      intro v u hu
      simp only [maxBySeq]
      have hv' : (if v.seq < x.seq then x else v).seq ≤
          (maxBySeq (if v.seq < x.seq then x else v) rest).seq :=
        ih _ _ (by simp)
      rcases List.mem_cons.mp hu with rfl | hu'
      · by_cases hlt : u.seq < x.seq
        · rw [if_pos hlt] at hv' ⊢
          omega
        · rw [if_neg hlt] at hv' ⊢
          omega
      · rcases List.mem_cons.mp hu' with rfl | hu''
        · by_cases hlt : v.seq < u.seq
          · rw [if_pos hlt] at hv' ⊢
            omega
          · rw [if_neg hlt] at hv' ⊢
            omega
        · exact ih _ u (List.mem_cons_of_mem _ hu'')

theorem maxBySeq_eq {l : List PromptVersion} {v w : PromptVersion}
    (hw : w ∈ v :: l) (hstrict : ∀ u ∈ v :: l, u = w ∨ u.seq < w.seq) :
    maxBySeq v l = w := by
  have hm := maxBySeq_mem l v
  rcases hstrict _ hm with h | h
  · exact h
  · have := maxBySeq_le l v w hw
    omega

theorem getLatest_eq {st : Store} {p : Nat} {w : PromptVersion}
    (hw : w ∈ versionsOf p st)
    (hstrict : ∀ u ∈ versionsOf p st, u = w ∨ u.seq < w.seq) :
    getLatest p st = .ok w := by
  cases hvo : versionsOf p st with
  | nil => rw [hvo] at hw; exact absurd hw (by simp)
  | cons v rest =>
      rw [hvo] at hw hstrict
      unfold getLatest
      rw [hvo]
      show Except.ok (maxBySeq v rest) = Except.ok w
      rw [maxBySeq_eq hw hstrict]

theorem versionsFresh_keep {st : Store} (h : VersionsFresh st) {st' : Store}
    (hv : st'.versions = st.versions) (hn : st.nextId ≤ st'.nextId)
    (hc : st.clock ≤ st'.clock) : VersionsFresh st' := by
  obtain ⟨h1, h2⟩ := h
  constructor
  · intro v hvv
    rw [hv] at hvv
    have := h1 v hvv
    omega
  · intro v hvv
    rw [hv] at hvv
    have := h2 v hvv
    omega

theorem versionsFresh_createVersion {st : Store} (h : VersionsFresh st) {p : Nat}
    {t : List Char} {stA : Store} {vA : PromptVersion}
    (heq : createVersion p t st = .ok (stA, vA)) : VersionsFresh stA := by
  obtain ⟨-, -, hstA⟩ := createVersion_ok heq
  subst hstA
  obtain ⟨h1, h2⟩ := h
  constructor
  · intro v hv
    simp only [List.mem_append, List.mem_singleton] at hv
    rcases hv with hv | rfl
    · have := h1 v hv
      simp only []
      omega
    · simp
  · intro v hv
    simp only [List.mem_append, List.mem_singleton] at hv
    rcases hv with hv | rfl
    · have := h2 v hv
      simp only []
      omega
    · simp

theorem runFresh_fresh {st : Store} (h : VersionsFresh st) (gen : Generator)
    (tcId vId : Nat) (model : List Char) (tc : TestCase) (v : PromptVersion) :
    VersionsFresh (runFresh gen tcId vId model tc v st).store := by
  simp only [runFresh]
  cases hg : gen (resolve v.template tc.input).rendered model with
  | error r => exact h
  | ok out => exact versionsFresh_keep h rfl (by simp) (by simp)

theorem run_fresh {st : Store} (h : VersionsFresh st) (gen : Generator) (tcId vId : Nat)
    (model : List Char) (force : Bool) :
    VersionsFresh (run gen tcId vId model force st).store := by
  cases htc : st.testCases.find? (fun x => decide (x.id = tcId)) with
  | none =>
      cases hv : st.versions.find? (fun x => decide (x.id = vId)) with
      | none => simp only [run, htc, hv]; exact h
      | some v => simp only [run, htc, hv]; exact h
  | some tc =>
      cases hv : st.versions.find? (fun x => decide (x.id = vId)) with
      | none => simp only [run, htc, hv]; exact h
      | some v =>
          simp only [run, htc, hv]
          cases force with
          | true => simp only [if_true]; exact runFresh_fresh h gen tcId vId model tc v
          | false =>
              simp only [Bool.false_eq_true, if_false]
              cases hE : st.evaluations.find? (samePair tcId vId) with
              | some e => exact h
              | none => exact runFresh_fresh h gen tcId vId model tc v

theorem batch_fold_fresh (gen : Generator) (b c : Nat) (model : List Char) (force : Bool) :
    ∀ (l : List TestCase) (acc : Store × List ((Nat × Nat) × BatchOutcome)),
      VersionsFresh acc.1 →
      VersionsFresh ((l.foldl (batchStep gen b c model force) acc).1) := by
  intro l
  induction l with
  | nil => intro acc h; exact h
  | cons tc rest ih =>
      intro acc h
      simp only [List.foldl_cons]
      apply ih
      show VersionsFresh
        (run gen tc.id c model force (run gen tc.id b model force acc.1).store).store
      exact run_fresh (run_fresh h gen tc.id b model force) gen tc.id c model force

theorem applyOp_fresh {st : Store} (h : VersionsFresh st) (op : Op) :
    VersionsFresh (applyOp st op) := by
  cases op with
  | createPrompt title =>
      simp only [applyOp]
      split
      · next p heq =>
          simp only [createPrompt] at heq
          split at heq
          · exact absurd heq (by simp)
          · injection heq with h2
            subst h2
            exact versionsFresh_keep h rfl (by simp) (by simp)
      · next heq => exact h
  | createVersion pid text =>
      simp only [applyOp]
      split
      · next p heq =>
          cases p with
          | mk p1 p2 => exact versionsFresh_createVersion h heq
      · next heq => exact h
  | createTestCase pid title input =>
      simp only [applyOp]
      split
      · next p heq =>
          simp only [createTestCase] at heq
          split at heq
          · split at heq
            · exact absurd heq (by simp)
            · injection heq with h2
              subst h2
              exact versionsFresh_keep h rfl (by simp) (by simp)
          · exact absurd heq (by simp)
      · next heq => exact h
  | deleteTestCase tcId =>
      simp only [applyOp]
      split
      · next s heq =>
          simp only [deleteTestCase] at heq
          split at heq
          · injection heq with h2
            subst h2
            exact versionsFresh_keep h rfl (by simp) (by simp)
          · exact absurd heq (by simp)
      · next heq => exact h
  | run gen tcId vId model force => exact run_fresh h gen tcId vId model force
  | runBatch gen pid b c model force =>
      simp only [applyOp]
      split
      · next p heq =>
          simp only [runBatch] at heq
          split at heq
          · injection heq with h2
            subst h2
            exact batch_fold_fresh gen b c model force _ (st, []) h
          · exact absurd heq (by simp)
      · next heq => exact h
  | compare pid b c => exact h

theorem applyOps_fresh : ∀ (ops : List Op) (st : Store),
    VersionsFresh st → VersionsFresh (applyOps ops st) := by
  intro ops
  induction ops with
  | nil => intro st h; exact h
  | cons op rest ih =>
      intro st h
      simp only [applyOps, List.foldl_cons] at *
      exact ih _ (applyOp_fresh h op)

/-- Claim C5: PromptVersions are immutable and `createVersion` only appends —
the freshness invariant holds in every reachable store, a successful
`createVersion` leaves the result store's versions table equal to the old
table with the new record appended, and after creating version "A" then "B"
for a prompt, `getById` of the first version still returns template "A" while
`getLatest` returns the version with template "B" (the maximum in the
creation order). -/
theorem claim_C5_thm :
    (∀ ops : List Op, VersionsFresh (applyOps ops emptyStore)) ∧
    (∀ (st : Store) (p : Nat) (t : List Char) (r : Store × PromptVersion),
      createVersion p t st = .ok r → r.1.versions = st.versions ++ [r.2]) ∧
    (∀ (st : Store) (p : Nat) (stA stB : Store) (vA vB : PromptVersion),
      VersionsFresh st →
      createVersion p (str "A") st = .ok (stA, vA) →
      createVersion p (str "B") stA = .ok (stB, vB) →
      getById vA.id stB = .ok vA ∧ vA.template = str "A" ∧
      getLatest p stB = .ok vB ∧ vB.template = str "B") := by
  refine ⟨?_, ?_, ?_⟩
  · intro ops
    apply applyOps_fresh
    constructor <;> intro v hv <;> exact absurd hv (by simp [emptyStore])
  · intro st p t r h
    cases r with
    | mk r1 r2 =>
        obtain ⟨-, hv, hst⟩ := createVersion_ok h
        subst hv hst
        rfl
  · intro st p stA stB vA vB hf hA hB
    obtain ⟨hf1, hf2⟩ := hf
    obtain ⟨hp, hvA, hstA⟩ := createVersion_ok hA
    obtain ⟨-, hvB, hstB⟩ := createVersion_ok hB
    have hvAid : vA.id = st.nextId := by rw [hvA]
    have hvAseq : vA.seq = st.clock := by rw [hvA]
    have hvAtpl : vA.template = str "A" := by rw [hvA]
    have hvAp : vA.promptId = p := by rw [hvA]
    have hA1 : stA.versions = st.versions ++ [vA] := by rw [hstA, hvA]
    have hA2 : stA.nextId = st.nextId + 1 := by rw [hstA]
    have hA3 : stA.clock = st.clock + 1 := by rw [hstA]
    have hvBid : vB.id = stA.nextId := by rw [hvB]
    have hvBseq : vB.seq = stA.clock := by rw [hvB]
    have hvBtpl : vB.template = str "B" := by rw [hvB]
    have hvBp : vB.promptId = p := by rw [hvB]
    have hB1 : stB.versions = stA.versions ++ [vB] := by rw [hstB, hvB]
    have hnone : st.versions.find? (fun x => decide (x.id = vA.id)) = none := by
      apply List.find?_eq_none.mpr
      intro x hx
      have := hf1 x hx
      simp only [decide_eq_true_eq]
      omega
    refine ⟨?_, hvAtpl, ?_, hvBtpl⟩
    · unfold getById
      rw [hB1, hA1, List.append_assoc, find?_append_of_none _ _ hnone,
        List.singleton_append,
        List.find?_cons_of_pos _ (by simp [hvAid])]
    · apply getLatest_eq
      · simp only [versionsOf]
        rw [hB1]
        simp [hvBp]
      · intro u hu
        simp only [versionsOf] at hu
        have hu' := List.mem_of_mem_filter hu
        rw [hB1] at hu'
        rcases List.mem_append.mp hu' with h | h
        · rw [hA1] at h
          rcases List.mem_append.mp h with h2 | h2
          · right
            have := hf2 u h2
            omega
          · right
            rw [List.mem_singleton] at h2
            subst h2
            omega
        · left
          rw [List.mem_singleton] at h
          exact h

/-- Witness for claim C5 on the sample store: creating "A" then "B". -/
theorem claim_C5_witness :
    getById 4 { sampleStore with
        versions := (sampleStore.versions ++ [⟨4, 1, str "A", 1⟩]) ++ [⟨5, 1, str "B", 2⟩]
        nextId := 6
        clock := 3 } = .ok ⟨4, 1, str "A", 1⟩ ∧
    getLatest 1 { sampleStore with
        versions := (sampleStore.versions ++ [⟨4, 1, str "A", 1⟩]) ++ [⟨5, 1, str "B", 2⟩]
        nextId := 6
        clock := 3 } = .ok ⟨5, 1, str "B", 2⟩ := by
  have h := claim_C5_thm.2.2 sampleStore 1
    { sampleStore with
        versions := sampleStore.versions ++ [⟨4, 1, str "A", 1⟩]
        nextId := 5
        clock := 2 }
    { sampleStore with
        versions := (sampleStore.versions ++ [⟨4, 1, str "A", 1⟩]) ++ [⟨5, 1, str "B", 2⟩]
        nextId := 6
        clock := 3 }
    ⟨4, 1, str "A", 1⟩ ⟨5, 1, str "B", 2⟩
    ⟨by decide, by decide⟩ rfl rfl
  exact ⟨h.1, h.2.2.1⟩

/-- Claim C6: `compare` fails with NotFound exactly for an unknown prompt;
for a known prompt it returns exactly one row per TestCase owned by the
prompt — the rows project back onto the owned test cases, in order — and each
side of a row is the stored Evaluation for the pair when one exists and the
explicit NotYetRun marker otherwise.  `compareVersions` is a pure read: it
takes the store and returns only rows. -/
theorem claim_C6_thm :
    ∀ (st : Store) (promptId b c : Nat),
      (promptId ∉ st.prompts → compareVersions promptId b c st = .error .notFound) ∧
      (promptId ∈ st.prompts →
        ∃ rows, compareVersions promptId b c st = .ok rows ∧
          rows.map (fun r => r.testCase) = testCasesOf promptId st ∧
          (∀ r ∈ rows,
            r.base = toCell (st.evaluations.find? (samePair r.testCase.id b)) ∧
            r.comp = toCell (st.evaluations.find? (samePair r.testCase.id c)))) := by
  intro st promptId b c
  constructor
  · intro hp
    simp [compareVersions, hp]
  · intro hp
    refine ⟨(testCasesOf promptId st).map (fun tc =>
        { testCase := tc
          base := toCell (st.evaluations.find? (samePair tc.id b))
          comp := toCell (st.evaluations.find? (samePair tc.id c)) }), ?_, ?_, ?_⟩
    · simp [compareVersions, hp]
    · have hcomp : ((fun (r : CompareRow) => r.testCase) ∘ fun tc =>
          ({ testCase := tc
             base := toCell (st.evaluations.find? (samePair tc.id b))
             comp := toCell (st.evaluations.find? (samePair tc.id c)) } : CompareRow)) = id := by
        funext tc
        rfl
      rw [List.map_map, hcomp, List.map_id]
    · intro r hr
      simp only [List.mem_map] at hr
      obtain ⟨tc, htc, rfl⟩ := hr
      exact ⟨rfl, rfl⟩

/-- Witness for claim C6 on the sample store: one row for its single test
case, with NotYetRun markers on both sides. -/
theorem claim_C6_witness :
    ∃ rows, compareVersions 1 2 2 sampleStore = .ok rows ∧
      rows.map (fun r => r.testCase) = testCasesOf 1 sampleStore ∧
      (∀ r ∈ rows,
        r.base = toCell (sampleStore.evaluations.find? (samePair r.testCase.id 2)) ∧
        r.comp = toCell (sampleStore.evaluations.find? (samePair r.testCase.id 2))) :=
  (claim_C6_thm sampleStore 1 2 2).2 (by decide)

end ReadANote
